import Mathlib

/-!
Verification development for the knowledge-graph engine of the
AI4S-Discovery repository (`src/agents/relation_agent.py`).

The Python code is shallowly embedded: dictionaries become structures,
`networkx.DiGraph` becomes an association-list graph with the same
add-node / add-edge overwrite semantics, Python's stable
`sorted(..., reverse=True)` becomes a stable descending insertion sort,
and float scores become exact rationals.  Third-party numeric routines
(TF-IDF cosine similarity, the three centrality measures, shortest-path
search, keyword extraction) are passed in as explicit function
parameters, since their outputs are data the engine merely consumes;
theorems that depend on one of their documented contracts take that
contract as a hypothesis.
-/

set_option maxHeartbeats 1000000

namespace AI4S

/-! ## Stable descending sort

Models Python `sorted(xs, key=key, reverse=True)`: descending in `key`,
and elements with equal keys keep their original relative order
(CPython's sort is stable, also with `reverse=True`). -/

def insDesc {α : Type} (key : α → ℚ) (x : α) : List α → List α
  | [] => [x]
  | y :: ys => if key y < key x then x :: y :: ys else y :: insDesc key x ys

def sortDesc {α : Type} (key : α → ℚ) (l : List α) : List α :=
  l.foldl (fun acc x => insDesc key x acc) []

theorem mem_insDesc {α : Type} (key : α → ℚ) (x : α) (l : List α) (a : α) :
    a ∈ insDesc key x l ↔ a = x ∨ a ∈ l := by
  induction l with
  | nil => simp [insDesc]
  | cons y ys ih =>
    by_cases h : key y < key x
    · simp [insDesc, h]
    · simp only [insDesc, h, if_false, List.mem_cons, ih]
      tauto

theorem insDesc_perm {α : Type} (key : α → ℚ) (x : α) (l : List α) :
    (insDesc key x l).Perm (x :: l) := by
  induction l with
  | nil => simp [insDesc]
  | cons y ys ih =>
    by_cases h : key y < key x
    · simp [insDesc, h]
    · simp only [insDesc, h, if_false]
      exact (List.Perm.cons y ih).trans (List.Perm.swap x y ys)

theorem foldl_insDesc_perm {α : Type} (key : α → ℚ) :
    ∀ (l acc : List α), (l.foldl (fun acc x => insDesc key x acc) acc).Perm (l ++ acc) := by
  intro l
  induction l with
  | nil => intro acc; simp
  | cons x xs ih =>
    intro acc
    have h1 := ih (insDesc key x acc)
    have h2 : (xs ++ insDesc key x acc).Perm (xs ++ (x :: acc)) :=
      List.Perm.append_left xs (insDesc_perm key x acc)
    have h3 : (xs ++ (x :: acc)).Perm (x :: (xs ++ acc)) := List.perm_middle
    simpa using (h1.trans h2).trans h3

theorem sortDesc_perm {α : Type} (key : α → ℚ) (l : List α) :
    (sortDesc key l).Perm l := by
  simpa [sortDesc] using foldl_insDesc_perm key l []

theorem length_sortDesc {α : Type} (key : α → ℚ) (l : List α) :
    (sortDesc key l).length = l.length :=
  (sortDesc_perm key l).length_eq

theorem mem_sortDesc {α : Type} (key : α → ℚ) (l : List α) (a : α) :
    a ∈ sortDesc key l ↔ a ∈ l :=
  (sortDesc_perm key l).mem_iff

/-- Inserting into a list sorted descending by `key` keeps it sorted. -/
theorem insDesc_pairwise {α : Type} (key : α → ℚ) (x : α) (l : List α)
    (hl : l.Pairwise (fun a b => key b ≤ key a)) :
    (insDesc key x l).Pairwise (fun a b => key b ≤ key a) := by
  induction l with
  | nil => simp [insDesc]
  | cons y ys ih =>
    rcases List.pairwise_cons.mp hl with ⟨hy, hys⟩
    by_cases h : key y < key x
    · simp only [insDesc, h, if_true]
      refine List.pairwise_cons.mpr ⟨?_, hl⟩
      intro b hb
      rcases List.mem_cons.mp hb with rfl | hb
      · exact le_of_lt h
      · exact le_trans (hy b hb) (le_of_lt h)
    · simp only [insDesc, h, if_false]
      refine List.pairwise_cons.mpr ⟨?_, ih hys⟩
      intro b hb
      rcases (mem_insDesc key x ys b).mp hb with rfl | hb
      · exact le_of_not_lt h
      · exact hy b hb

theorem foldl_insDesc_pairwise {α : Type} (key : α → ℚ) :
    ∀ (l acc : List α), acc.Pairwise (fun a b => key b ≤ key a) →
      (l.foldl (fun acc x => insDesc key x acc) acc).Pairwise (fun a b => key b ≤ key a) := by
  intro l
  induction l with
  | nil => intro acc h; simpa
  | cons x xs ih =>
    intro acc h
    exact ih (insDesc key x acc) (insDesc_pairwise key x acc h)

/-- The stable sort is sorted: keys are weakly decreasing along the output. -/
theorem sortDesc_pairwise {α : Type} (key : α → ℚ) (l : List α) :
    (sortDesc key l).Pairwise (fun a b => key b ≤ key a) :=
  foldl_insDesc_pairwise key l [] (by simp)

/-! ## Data model

A `Paper` is the engine's view of one input document dictionary.
Absent optional string keys are the empty string, an absent or `None`
year is `0` (both are falsy in Python, which is how the source tests
them), and reference/citation entries are the extracted `paperId`
strings (a dict entry whose `paperId` is `None` becomes `""` and is
skipped by the code's truthiness test, exactly as here). -/

structure Paper where
  paperId : String := ""
  title : String := ""
  authors : List String := []
  year : Nat := 0
  abstract : String := ""
  quality_score : ℚ := 0
  citationCount : Nat := 0
  source : String := ""
  keywords : List String := []
  references : List String := []
  citations : List String := []
deriving Repr, DecidableEq, Inhabited

/-- `paper.get('paperId') or paper.get('title', '')`: Python `or` falls
through on a falsy (empty/absent) `paperId`. -/
def paperKey (p : Paper) : String :=
  if p.paperId = "" then p.title else p.paperId

/-- Node attribute dictionary stored by `_add_nodes`. -/
structure NodeAttrs where
  title : String := ""
  authors : List String := []
  year : Nat := 0
  abstract : String := ""
  quality_score : ℚ := 0
  citation_count : Nat := 0
  source : String := ""
  keywords : List String := []
deriving Repr, DecidableEq, Inhabited

def attrsOfPaper (p : Paper) : NodeAttrs :=
  { title := p.title, authors := p.authors, year := p.year,
    abstract := p.abstract, quality_score := p.quality_score,
    citation_count := p.citationCount, source := p.source,
    keywords := p.keywords }

/-- One directed edge with its attribute dictionary. -/
structure Edge where
  source : String
  target : String
  etype : String
  weight : ℚ
deriving Repr, DecidableEq, Inhabited

/-- Shallow embedding of the `networkx.DiGraph` the agent uses: nodes
are an insertion-ordered association list keyed by node id, edges an
insertion-ordered list with at most one edge per `(source, target)`
key, matching the dict-of-dicts representation. -/
structure Graph where
  nodes : List (String × NodeAttrs) := []
  edges : List Edge := []
deriving Repr, DecidableEq, Inhabited

def Graph.nodeKeys (g : Graph) : List String := g.nodes.map Prod.fst

def Graph.numberOfNodes (g : Graph) : Nat := g.nodes.length

def Graph.numberOfEdges (g : Graph) : Nat := g.edges.length

/-- `G.add_node(id, **attrs)`: inserts, or overwrites the attributes of
an existing node without changing its position. -/
def Graph.addNode (g : Graph) (k : String) (a : NodeAttrs) : Graph :=
  if g.nodes.any (fun p => p.1 = k) then
    { g with nodes := g.nodes.map (fun p => if p.1 = k then (k, a) else p) }
  else
    { g with nodes := g.nodes ++ [(k, a)] }

/-- `networkx` silently creates missing endpoints on `add_edge`. -/
def Graph.ensureNode (g : Graph) (k : String) : Graph :=
  if g.nodes.any (fun p => p.1 = k) then g
  else { g with nodes := g.nodes ++ [(k, {})] }

/-- `G.add_edge(u, v, type=t, weight=w)`: creates missing endpoints,
then inserts the edge, or overwrites the attributes of an existing
`(u, v)` edge. -/
def Graph.addEdge (g : Graph) (u v : String) (t : String) (w : ℚ) : Graph :=
  let g2 := (g.ensureNode u).ensureNode v
  if g2.edges.any (fun e => e.source = u && e.target = v) then
    { g2 with edges := g2.edges.map (fun e => if e.source = u && e.target = v then ⟨u, v, t, w⟩ else e) }
  else
    { g2 with edges := g2.edges ++ [⟨u, v, t, w⟩] }

/-- `self.graph.nodes[k]` attribute lookup (first matching key). -/
def Graph.attrsOf (g : Graph) (k : String) : NodeAttrs :=
  ((g.nodes.find? (fun p => p.1 = k)).map Prod.snd).getD {}

/-- `G.degree(k)` on a `DiGraph`: in-degree plus out-degree (a
self-loop contributes to both). -/
def Graph.degree (g : Graph) (k : String) : Nat :=
  (g.edges.filter (fun e => e.source = k)).length +
    (g.edges.filter (fun e => e.target = k)).length

/-! ### Basic graph lemmas -/

theorem Graph.nodeKeys_addNode (g : Graph) (k : String) (a : NodeAttrs) :
    (g.addNode k a).nodeKeys = if k ∈ g.nodeKeys then g.nodeKeys else g.nodeKeys ++ [k] := by
  unfold Graph.addNode Graph.nodeKeys
  by_cases h : g.nodes.any (fun p => p.1 = k)
  · have hk : k ∈ g.nodes.map Prod.fst := by
      rcases List.any_eq_true.mp h with ⟨p, hp, hpk⟩
      exact List.mem_map.mpr ⟨p, hp, of_decide_eq_true hpk⟩
    simp only [h, if_true, hk]
    rw [List.map_map]
    apply List.map_congr_left
    intro p hp
    by_cases hpk : p.1 = k <;> simp [hpk]
  · have hk : k ∉ g.nodes.map Prod.fst := by
      intro hmem
      rcases List.mem_map.mp hmem with ⟨p, hp, hpk⟩
      exact (List.any_eq_true.not.mp h) ⟨p, hp, decide_eq_true hpk⟩
    simp [h, hk]

theorem Graph.ensureNode_of_mem (g : Graph) (k : String) (h : k ∈ g.nodeKeys) :
    g.ensureNode k = g := by
  unfold Graph.ensureNode
  rcases List.mem_map.mp h with ⟨p, hp, hpk⟩
  have : g.nodes.any (fun p => p.1 = k) := List.any_eq_true.mpr ⟨p, hp, decide_eq_true hpk⟩
  simp [this]

theorem Graph.ensureNode_edges (g : Graph) (k : String) :
    (g.ensureNode k).edges = g.edges := by
  unfold Graph.ensureNode
  by_cases h : g.nodes.any (fun p => p.1 = k) <;> simp [h]

theorem Graph.addEdge_nodes (g : Graph) (u v : String) (t : String) (w : ℚ)
    (hu : u ∈ g.nodeKeys) (hv : v ∈ g.nodeKeys) :
    (g.addEdge u v t w).nodes = g.nodes := by
  unfold Graph.addEdge
  rw [Graph.ensureNode_of_mem g u hu, Graph.ensureNode_of_mem g v hv]
  by_cases h : g.edges.any (fun e => e.source = u && e.target = v) <;> simp [h]

theorem Graph.addEdge_nodeKeys (g : Graph) (u v : String) (t : String) (w : ℚ)
    (hu : u ∈ g.nodeKeys) (hv : v ∈ g.nodeKeys) :
    (g.addEdge u v t w).nodeKeys = g.nodeKeys := by
  unfold Graph.nodeKeys
  rw [Graph.addEdge_nodes g u v t w hu hv]

/-- Every edge of `addEdge g u v t w` is the new edge or an old one. -/
theorem Graph.mem_addEdge (g : Graph) (u v : String) (t : String) (w : ℚ) (e : Edge)
    (he : e ∈ (g.addEdge u v t w).edges) :
    e = ⟨u, v, t, w⟩ ∨ e ∈ g.edges := by
  unfold Graph.addEdge at he
  set g' := (g.ensureNode u).ensureNode v with hg'
  have hedges : g'.edges = g.edges := by
    rw [hg', Graph.ensureNode_edges, Graph.ensureNode_edges]
  by_cases h : g'.edges.any (fun e => e.source = u && e.target = v)
  · simp only [h, if_true] at he
    rcases List.mem_map.mp he with ⟨e', he', heq⟩
    by_cases hk : e'.source = u && e'.target = v
    · left
      rw [if_pos hk] at heq
      exact heq.symm
    · right
      rw [if_neg hk] at heq
      rw [hedges] at he'
      rwa [← heq]
  · simp only [h, if_false] at he
    rcases List.mem_append.mp he with he | he
    · right; rwa [hedges] at he
    · left; exact List.mem_singleton.mp he

/-! ## The engine pipeline (`RelationAgent`)

Third-party numeric routines are taken as parameters, bundled in
`LibFns`: `sim i j` is the cosine similarity `similarity_matrix[i][j]`
of scikit-learn, `dc`/`bc`/`pr` the three `networkx` centrality maps,
`sp` is `nx.shortest_path` (`none` encodes `NetworkXNoPath`), and
`themeFn` the TF-IDF keyword extraction of `_extract_cluster_theme`'s
`try` branch. -/

structure LibFns where
  sim : Nat → Nat → ℚ
  dc : String → ℚ
  bc : String → ℚ
  pr : String → ℚ
  sp : String → String → Option (List String)
  themeFn : List String → String

/-- Python slice `l[:m]` for an `int` bound `m`, which may be negative
(counting from the end, clamped at zero). -/
def pyTakeInt {α : Type} (l : List α) (m : Int) : List α :=
  if 0 ≤ m then l.take m.toNat else l.take (l.length - (-m).toNat)

/-- The node-cap step at the top of `build_knowledge_graph`:
`if max_nodes and len(papers) > max_nodes:` then keep
`sorted(papers, key=quality_score, reverse=True)[:max_nodes]`.
`None` and `0` are both falsy, so neither caps. -/
def retainPapers (papers : List Paper) (max_nodes : Option Int) : List Paper :=
  match max_nodes with
  | none => papers
  | some m =>
    if m ≠ 0 ∧ (m < (papers.length : Int)) then
      pyTakeInt (sortDesc (fun p => p.quality_score) papers) m
    else papers

/-- `_add_nodes`: one `add_node` per paper, in list order. -/
def add_nodes (g : Graph) (papers : List Paper) : Graph :=
  papers.foldl (fun g p => g.addNode (paperKey p) (attrsOfPaper p)) g

/-- `_add_citation_edges`: for each paper, an edge `paper → ref` per
reference and `cit → paper` per citing paper, only when the other id is
truthy and among the graph's node ids. -/
def add_citation_edges (g : Graph) (papers : List Paper) : Graph :=
  let paperIds := g.nodeKeys
  papers.foldl (fun g p =>
    let pid := paperKey p
    let gr := p.references.foldl (fun g r =>
      if r ≠ "" ∧ r ∈ paperIds then g.addEdge pid r "citation" 1 else g) g
    p.citations.foldl (fun g c =>
      if c ≠ "" ∧ c ∈ paperIds then g.addEdge c pid "citation" 1 else g) gr) g

/-- `paper.get('title')` / `paper.get('abstract')` truthiness: the
paper contributes a text to the TF-IDF corpus iff one is nonempty. -/
def hasText (p : Paper) : Bool := p.title ≠ "" || p.abstract ≠ ""

/-- The index pairs visited by the nested loops
`for i in range(n): for j in range(i+1, n):`, in visit order. -/
def simPairs (n : Nat) : List (Nat × Nat) :=
  (List.range n).flatMap (fun i => ((List.range n).filter (fun j => i < j)).map (fun j => (i, j)))

/-- `_add_similarity_edges`: papers with usable text are vectorized in
order; each index pair `i < j` whose similarity reaches the threshold
becomes one directed edge `ids[i] → ids[j]`. -/
def add_similarity_edges (g : Graph) (papers : List Paper) (threshold : ℚ)
    (sim : Nat → Nat → ℚ) : Graph :=
  if papers.length < 2 then g
  else
    let pids := (papers.filter hasText).map paperKey
    if pids.length < 2 then g
    else
      (simPairs pids.length).foldl (fun g ij =>
        if threshold ≤ sim ij.1 ij.2 then
          g.addEdge (pids.getD ij.1 "") (pids.getD ij.2 "") "similarity" (sim ij.1 ij.2)
        else g) g

/-- One merge step of an undirected-connectivity partition: the blocks
touching `u` or `v` are united, the rest are untouched. -/
def mergeComp (comps : List (List String)) (u v : String) : List (List String) :=
  let joined := comps.filter (fun c => c.contains u || c.contains v)
  if joined.length ≤ 1 then comps
  else joined.flatten :: comps.filter (fun c => !(c.contains u || c.contains v))

/-- `nx.connected_components(self.graph.to_undirected())`: start from
singletons and merge along every edge, ignoring direction. -/
def connectedComponents (g : Graph) : List (List String) :=
  g.edges.foldl (fun comps e => mergeComp comps e.source e.target) (g.nodeKeys.map (fun k => [k]))

structure Cluster where
  cluster_id : Nat
  size : Nat
  nodes : List String
  theme : String
deriving Repr, DecidableEq, Inhabited

/-- Titles collected for a cluster's theme, keeping only truthy ones. -/
def clusterTexts (g : Graph) (c : List String) : List String :=
  c.filterMap (fun n => if (g.attrsOf n).title ≠ "" then some (g.attrsOf n).title else none)

/-- `_extract_cluster_theme`: the generic marker on an empty corpus,
otherwise the TF-IDF keyword string. -/
def extract_cluster_theme (themeFn : List String → String) (texts : List String) : String :=
  if texts.isEmpty then "未知主题" else themeFn texts

/-- `_simple_clustering` (the connected-component fallback used when
`python-louvain` is unavailable): components sorted by size
descending, the largest `max_clusters` reported, member lists truncated
to the first 10 nodes while `size` keeps the true count. -/
def simple_clustering (themeFn : List String → String) (g : Graph) (max_clusters : Nat) :
    List Cluster :=
  let comps := connectedComponents g
  ((sortDesc (fun c => ((c.length : ℚ))) comps).take max_clusters).enum.map (fun ic =>
    { cluster_id := ic.1, size := ic.2.length, nodes := ic.2.take 10,
      theme := extract_cluster_theme themeFn (clusterTexts g ic.2) })

/-- `_identify_clusters`: nothing below 2 nodes, else community
detection (modelled by its in-repo connected-component fallback). -/
def identify_clusters (themeFn : List String → String) (g : Graph) (max_clusters : Nat) :
    List Cluster :=
  if g.numberOfNodes < 2 then [] else simple_clustering themeFn g max_clusters

structure KeyNode where
  node_id : String
  title : String
  year : Nat
  importance_score : ℚ
  degree : Nat
  citation_count : Nat
deriving Repr, DecidableEq, Inhabited

/-- `_identify_key_nodes`: composite score
`0.3*degree + 0.3*betweenness + 0.4*pagerank` per node, stable-sorted
descending, top `top_n` reported.  The source additionally rounds the
reported score to 4 decimals for display; the exact value is kept
here (the sort happens on the unrounded scores in the source too). -/
def identify_key_nodes (dc bc pr : String → ℚ) (g : Graph) (top_n : Nat) : List KeyNode :=
  if g.numberOfNodes = 0 then []
  else
    let nodeScores := g.nodes.map (fun p => (p.1, dc p.1 * (3/10) + bc p.1 * (3/10) + pr p.1 * (2/5)))
    ((sortDesc (fun x => x.2) nodeScores).take top_n).map (fun ks =>
      { node_id := ks.1, title := (g.attrsOf ks.1).title, year := (g.attrsOf ks.1).year,
        importance_score := ks.2, degree := g.degree ks.1,
        citation_count := (g.attrsOf ks.1).citation_count })

structure PathNode where
  title : String
  year : Nat
deriving Repr, DecidableEq, Inhabited

structure PathInfo where
  plen : Nat
  start_year : Nat
  end_year : Nat
  nodes : List PathNode
deriving Repr, DecidableEq, Inhabited

/-- The years collected by `nodes_by_year` (a year of 0 / `None` is
falsy and excluded), with multiplicity, in node order. -/
def populatedYears (g : Graph) : List Nat :=
  g.nodes.filterMap (fun p => if p.2.year ≠ 0 then some p.2.year else none)

def distinctYears (g : Graph) : List Nat := (populatedYears g).dedup

/-- `nodes_by_year[y]` for a populated year `y`: node ids in node
order. -/
def nodesWithYear (g : Graph) (y : Nat) : List String :=
  g.nodes.filterMap (fun p => if p.2.year = y then some p.1 else none)

/-- `sorted(nodes_by_year.keys())`. -/
def sortAscNat (l : List Nat) : List Nat := sortDesc (fun y => -(y : ℚ)) l

/-- `_analyze_evolution_paths`: up to 3 earliest-year and 3 latest-year
nodes are paired in a fixed order; each pair with a directed path of
length > 1 contributes one record until `max_paths` are collected
(the double `break` in the source is the skip once the cap is hit). -/
def analyze_evolution_paths (sp : String → String → Option (List String)) (g : Graph)
    (max_paths : Nat) : List PathInfo :=
  if g.numberOfNodes < 2 then []
  else
    let years := sortAscNat (distinctYears g)
    if years.length < 2 then []
    else
      let y0 := years.headD 0
      let y1 := years.getLastD 0
      let early := nodesWithYear g y0
      let recent := nodesWithYear g y1
      let pairs := (early.take 3).flatMap (fun s => (recent.take 3).map (fun t => (s, t)))
      pairs.foldl (fun acc st =>
        if max_paths ≤ acc.length then acc
        else
          match sp st.1 st.2 with
          | none => acc
          | some path =>
            if 1 < path.length then
              acc ++ [{ plen := path.length, start_year := y0, end_year := y1,
                        nodes := path.map (fun n =>
                          { title := (g.attrsOf n).title, year := (g.attrsOf n).year }) }]
            else acc) []

structure ExportNode where
  id : String
  label : String
  year : Nat
  quality_score : ℚ
  citation_count : Nat
deriving Repr, DecidableEq, Inhabited

structure GraphData where
  nodes : List ExportNode
  edges : List Edge
deriving Repr, DecidableEq, Inhabited

/-- `_export_graph_data`: one entry per node (title truncated to 50
characters for the label) and one per edge; `type` and `weight` are
always present on our edges, so the edge dict copy is the identity. -/
def export_graph_data (g : Graph) : GraphData :=
  { nodes := g.nodes.map (fun p =>
      { id := p.1, label := p.2.title.take 50, year := p.2.year,
        quality_score := p.2.quality_score, citation_count := p.2.citation_count }),
    edges := g.edges }

structure GraphStats where
  nodes : Nat
  edges : Nat
  density : ℚ
  avg_degree : ℚ
  max_degree : Nat
  connected_components : Nat
deriving Repr, DecidableEq, Inhabited

/-- `_calculate_graph_statistics` (float means and densities become
exact rationals). -/
def calculate_graph_statistics (g : Graph) : GraphStats :=
  let n := g.numberOfNodes
  let m := g.numberOfEdges
  { nodes := n, edges := m,
    density := if n ≤ 1 then 0 else (m : ℚ) / ((n : ℚ) * ((n : ℚ) - 1)),
    avg_degree := if n = 0 then 0
      else ((g.nodeKeys.foldl (fun s k => s + g.degree k) 0 : Nat) : ℚ) / (n : ℚ),
    max_degree := if n = 0 then 0 else (g.nodeKeys.map g.degree).foldl Nat.max 0,
    connected_components := if n = 0 then 0 else (connectedComponents g).length }

structure BuildResult where
  nodes : Nat
  edges : Nat
  statistics : GraphStats
  clusters : List Cluster
  key_nodes : List KeyNode
  evolution_paths : List PathInfo
  graph_data : GraphData
deriving Repr, DecidableEq, Inhabited

/-- Steps 1–3 of `build_knowledge_graph`: cap the input by quality,
clear the graph, add nodes, then citation and similarity edges. -/
def build_graph (fns : LibFns) (papers : List Paper)
    (include_citations include_similarity : Bool) (max_nodes : Option Int)
    (similarity_threshold : ℚ) : Graph :=
  let retained := retainPapers papers max_nodes
  let g1 := add_nodes {} retained
  let g2 := if include_citations then add_citation_edges g1 retained else g1
  if include_similarity then
    add_similarity_edges g2 retained similarity_threshold fns.sim
  else g2

/-- `build_knowledge_graph`: build the graph, then run the four
analyses on the frozen graph and export it. -/
def build_knowledge_graph (fns : LibFns) (papers : List Paper)
    (include_citations include_similarity : Bool) (max_nodes : Option Int)
    (similarity_threshold : ℚ) : BuildResult :=
  let g3 := build_graph fns papers include_citations include_similarity
    max_nodes similarity_threshold
  { nodes := g3.numberOfNodes, edges := g3.numberOfEdges,
    statistics := calculate_graph_statistics g3,
    clusters := identify_clusters fns.themeFn g3 10,
    key_nodes := identify_key_nodes fns.dc fns.bc fns.pr g3 10,
    evolution_paths := analyze_evolution_paths fns.sp g3 5,
    graph_data := export_graph_data g3 }

/-! ## Concrete sample inputs used by witnesses and counterexamples -/

/-- Trivial stand-ins for the third-party routines. -/
def fns0 : LibFns :=
  ⟨fun _ _ => 0, fun _ => 0, fun _ => 0, fun _ => 0, fun _ _ => none, fun _ => "kw"⟩

def p90 : Paper := { paperId := "A", title := "alpha", year := 2010, quality_score := 90 }

def p70 : Paper :=
  { paperId := "B", title := "beta", year := 2012, quality_score := 70, references := ["A"] }

def pX5 : Paper := { paperId := "X", title := "x", quality_score := 5 }

def pY5 : Paper := { paperId := "Y", title := "y", quality_score := 5 }

/-- A paper whose reference list contains its own identifier. -/
def pSelf : Paper := { paperId := "S", title := "s", references := ["S"] }

/-! ## Helper lemmas about the phases -/

theorem mem_simPairs (n : Nat) (ij : Nat × Nat) :
    ij ∈ simPairs n ↔ ij.1 < ij.2 ∧ ij.2 < n := by
  simp only [simPairs, List.mem_flatMap, List.mem_map, List.mem_filter, List.mem_range]
  constructor
  · rintro ⟨i', hi', j', ⟨hj', hij'⟩, rfl⟩
    exact ⟨of_decide_eq_true hij', hj'⟩
  · rintro ⟨hij, hj⟩
    exact ⟨ij.1, lt_trans hij hj, ij.2, ⟨hj, decide_eq_true hij⟩, rfl⟩

/-- Folding a step that preserves the node list (for the elements of
the given list) preserves the node list. -/
theorem foldl_preserves_nodes {β : Type} (g : Graph) (f : Graph → β → Graph) :
    ∀ (l : List β) (h : Graph),
      (∀ h' x, x ∈ l → h'.nodes = g.nodes → (f h' x).nodes = g.nodes) →
      h.nodes = g.nodes → (l.foldl f h).nodes = g.nodes := by
  intro l
  induction l with
  | nil => intro h _ hh; simpa
  | cons x xs ih =>
    intro h hstep hh
    exact ih (f h x) (fun h' y hy => hstep h' y (List.mem_cons_of_mem x hy))
      (hstep h x (List.mem_cons_self x xs) hh)

theorem nodeKeys_eq_of_nodes_eq {g h : Graph} (hh : h.nodes = g.nodes) :
    h.nodeKeys = g.nodeKeys := by
  unfold Graph.nodeKeys; rw [hh]

theorem add_citation_edges_nodes (g : Graph) (papers : List Paper)
    (hp : ∀ p ∈ papers, paperKey p ∈ g.nodeKeys) :
    (add_citation_edges g papers).nodes = g.nodes := by
  unfold add_citation_edges
  refine foldl_preserves_nodes g _ papers g ?_ rfl
  intro h p hpmem hh
  have hpid : paperKey p ∈ g.nodeKeys := hp p hpmem
  refine foldl_preserves_nodes g _ p.citations _ ?_ ?_
  · intro h2 c _ hh2
    try dsimp only
    by_cases hc : c ≠ "" ∧ c ∈ g.nodeKeys
    · rw [if_pos hc]
      have hk2 := nodeKeys_eq_of_nodes_eq hh2
      rw [Graph.addEdge_nodes _ _ _ _ _ (hk2 ▸ hc.2) (hk2 ▸ hpid)]
      exact hh2
    · rw [if_neg hc]
      exact hh2
  · refine foldl_preserves_nodes g _ p.references _ ?_ hh
    intro h2 r _ hh2
    try dsimp only
    by_cases hr : r ≠ "" ∧ r ∈ g.nodeKeys
    · rw [if_pos hr]
      have hk2 := nodeKeys_eq_of_nodes_eq hh2
      rw [Graph.addEdge_nodes _ _ _ _ _ (hk2 ▸ hpid) (hk2 ▸ hr.2)]
      exact hh2
    · rw [if_neg hr]
      exact hh2

theorem add_similarity_edges_nodes (g : Graph) (papers : List Paper) (threshold : ℚ)
    (sim : Nat → Nat → ℚ) (hp : ∀ p ∈ papers, paperKey p ∈ g.nodeKeys) :
    (add_similarity_edges g papers threshold sim).nodes = g.nodes := by
  unfold add_similarity_edges
  by_cases h1 : papers.length < 2
  · simp [h1]
  · simp only [h1, if_false]
    set pids := (papers.filter hasText).map paperKey with hpids
    by_cases h2 : pids.length < 2
    · simp [h2]
    · simp only [h2, if_false]
      have hsub : ∀ x ∈ pids, x ∈ g.nodeKeys := by
        intro x hx
        rcases List.mem_map.mp hx with ⟨p, hpmem, rfl⟩
        exact hp p (List.mem_of_mem_filter hpmem)
      refine foldl_preserves_nodes g _ (simPairs pids.length) g ?_ rfl
      intro h' ij hij hh'
      rcases (mem_simPairs pids.length ij).mp hij with ⟨hij1, hij2⟩
      try dsimp only
      by_cases hthr : threshold ≤ sim ij.1 ij.2
      · rw [if_pos hthr]
        have hk' := nodeKeys_eq_of_nodes_eq hh'
        have hi : pids.getD ij.1 "" ∈ g.nodeKeys := by
          have hlt : ij.1 < pids.length := lt_trans hij1 hij2
          rw [List.getD_eq_getElem pids "" hlt]
          exact hsub _ (List.getElem_mem hlt)
        have hj : pids.getD ij.2 "" ∈ g.nodeKeys := by
          rw [List.getD_eq_getElem pids "" hij2]
          exact hsub _ (List.getElem_mem hij2)
        rw [Graph.addEdge_nodes _ _ _ _ _ (hk' ▸ hi) (hk' ▸ hj)]
        exact hh'
      · rw [if_neg hthr]
        exact hh'

theorem retainPapers_subset {papers : List Paper} {mn : Option Int} {p : Paper}
    (hp : p ∈ retainPapers papers mn) : p ∈ papers := by
  unfold retainPapers at hp
  cases mn with
  | none => exact hp
  | some m =>
    dsimp only at hp
    by_cases h : m ≠ 0 ∧ m < (papers.length : Int)
    · rw [if_pos h] at hp
      unfold pyTakeInt at hp
      by_cases h0 : (0 : Int) ≤ m
      · rw [if_pos h0] at hp
        exact (mem_sortDesc _ _ _).mp (List.mem_of_mem_take hp)
      · rw [if_neg h0] at hp
        exact (mem_sortDesc _ _ _).mp (List.mem_of_mem_take hp)
    · rw [if_neg h] at hp
      exact hp

theorem retainPapers_keys_nodup (papers : List Paper) (mn : Option Int)
    (h : (papers.map paperKey).Nodup) : ((retainPapers papers mn).map paperKey).Nodup := by
  unfold retainPapers
  cases mn with
  | none => exact h
  | some m =>
    dsimp only
    by_cases hc : m ≠ 0 ∧ m < (papers.length : Int)
    · rw [if_pos hc]
      have hperm : ((sortDesc (fun p => p.quality_score) papers).map paperKey).Perm
          (papers.map paperKey) := (sortDesc_perm _ papers).map paperKey
      have hnd : ((sortDesc (fun p => p.quality_score) papers).map paperKey).Nodup :=
        hperm.nodup_iff.mpr h
      unfold pyTakeInt
      by_cases h0 : (0 : Int) ≤ m
      · rw [if_pos h0, List.map_take]
        exact hnd.sublist (List.take_sublist _ _)
      · rw [if_neg h0, List.map_take]
        exact hnd.sublist (List.take_sublist _ _)
    · rw [if_neg hc]
      exact h

/-- Node ids after `_add_nodes`: exactly the old ids plus the papers'
ids, without duplicates if there were none before. -/
theorem add_nodes_nodeKeys :
    ∀ (papers : List Paper) (g : Graph),
      (∀ x, x ∈ (add_nodes g papers).nodeKeys ↔ x ∈ g.nodeKeys ∨ x ∈ papers.map paperKey) ∧
      (g.nodeKeys.Nodup → (add_nodes g papers).nodeKeys.Nodup) := by
  intro papers
  induction papers with
  | nil => intro g; simp [add_nodes]
  | cons p ps ih =>
    intro g
    have hstep := Graph.nodeKeys_addNode g (paperKey p) (attrsOfPaper p)
    have hfold : add_nodes g (p :: ps) = add_nodes (g.addNode (paperKey p) (attrsOfPaper p)) ps := by
      simp [add_nodes]
    rw [hfold]
    rcases ih (g.addNode (paperKey p) (attrsOfPaper p)) with ⟨ihmem, ihnodup⟩
    constructor
    · intro x
      rw [ihmem x, hstep]
      by_cases hk : paperKey p ∈ g.nodeKeys
      · simp only [hk, if_true, List.map_cons, List.mem_cons]
        constructor
        · rintro (hx | hx)
          · exact Or.inl hx
          · exact Or.inr (Or.inr hx)
        · rintro (hx | rfl | hx)
          · exact Or.inl hx
          · exact Or.inl hk
          · exact Or.inr hx
      · simp only [hk, if_false, List.mem_append, List.mem_singleton, List.map_cons,
          List.mem_cons]
        tauto
    · intro hnd
      apply ihnodup
      rw [hstep]
      by_cases hk : paperKey p ∈ g.nodeKeys
      · simpa [hk]
      · simp only [hk, if_false]
        exact List.Nodup.append hnd (List.nodup_singleton _) (by simpa using hk)

/-- The key-set facts of the node-building phase, starting from the
cleared graph. -/
theorem add_nodes_empty_keys (papers : List Paper) :
    (∀ x, x ∈ (add_nodes {} papers).nodeKeys ↔ x ∈ papers.map paperKey) ∧
    (add_nodes {} papers).nodeKeys.Nodup := by
  obtain ⟨hmem, hnodup⟩ := add_nodes_nodeKeys papers {}
  refine ⟨fun x => ?_, hnodup (by simp [Graph.nodeKeys])⟩
  rw [hmem x]
  simp [Graph.nodeKeys]

/-- Edge phases never change the node list: citations are only added
between snapshot ids, and similarity edges only between ids of retained
papers. -/
theorem build_graph_nodes (fns : LibFns) (papers : List Paper) (ic is : Bool)
    (mn : Option Int) (thr : ℚ) :
    (build_graph fns papers ic is mn thr).nodes =
      (add_nodes {} (retainPapers papers mn)).nodes := by
  unfold build_graph
  set retained := retainPapers papers mn with hret
  set g1 := add_nodes {} retained with hg1
  obtain ⟨hmem1, _⟩ := add_nodes_empty_keys retained
  have hp1 : ∀ p ∈ retained, paperKey p ∈ g1.nodeKeys := by
    intro p hp
    exact (hmem1 _).mpr (List.mem_map_of_mem paperKey hp)
  have h2 : (if ic then add_citation_edges g1 retained else g1).nodes = g1.nodes := by
    by_cases hic : ic
    · rw [if_pos hic]
      exact add_citation_edges_nodes g1 retained hp1
    · rw [if_neg hic]
  by_cases his : is
  · rw [if_pos his]
    have hp2 : ∀ p ∈ retained,
        paperKey p ∈ (if ic then add_citation_edges g1 retained else g1).nodeKeys := by
      intro p hp
      rw [nodeKeys_eq_of_nodes_eq h2]
      exact hp1 p hp
    rw [add_similarity_edges_nodes _ retained thr fns.sim hp2]
    exact h2
  · rw [if_neg his]
    exact h2

/-! ## Claim C1 — node count -/

/-- C1 (counterexample): the claimed formula
`node count = min(len(documents), max_nodes)` fails at
`max_nodes = 0`: `0` is falsy in `if max_nodes and ...`, so no cap is
applied and one node is built, while the formula demands `min 1 0 = 0`. -/
theorem C1_counterexample :
    (build_knowledge_graph fns0 [p90] true true (some 0) (3/10)).nodes ≠
      min [p90].length 0 := by
  decide

/-- C1 (amended): the node count of `build_knowledge_graph` equals the
number of **distinct** identities among the retained documents, where
`retainPapers` keeps the `max_nodes` best-quality documents only when
`max_nodes` is truthy (non-`None`, nonzero) and exceeded; duplicate
identities collapse into one node. -/
theorem C1_amended_node_count (fns : LibFns) (papers : List Paper) (ic is : Bool)
    (mn : Option Int) (thr : ℚ) :
    (build_knowledge_graph fns papers ic is mn thr).nodes =
      ((retainPapers papers mn).map paperKey).toFinset.card := by
  show (build_graph fns papers ic is mn thr).numberOfNodes = _
  set retained := retainPapers papers mn with hret
  obtain ⟨hmem, hnodup⟩ := add_nodes_empty_keys retained
  have hlen : (build_graph fns papers ic is mn thr).numberOfNodes =
      (add_nodes {} retained).nodeKeys.length := by
    unfold Graph.numberOfNodes Graph.nodeKeys
    rw [build_graph_nodes, List.length_map]
  rw [hlen, ← List.toFinset_card_of_nodup hnodup]
  congr 1
  apply Finset.ext
  intro x
  rw [List.mem_toFinset, List.mem_toFinset]
  exact hmem x

/-! ## Claim C10 — top-level counts match the exported arrays -/

/-- C10: in every result object the top-level `nodes`/`edges` counts
equal the lengths of the exported `graph_data` arrays. -/
theorem C10_counts_match_export (fns : LibFns) (papers : List Paper) (ic is : Bool)
    (mn : Option Int) (thr : ℚ) :
    (build_knowledge_graph fns papers ic is mn thr).nodes =
      (build_knowledge_graph fns papers ic is mn thr).graph_data.nodes.length ∧
    (build_knowledge_graph fns papers ic is mn thr).edges =
      (build_knowledge_graph fns papers ic is mn thr).graph_data.edges.length := by
  unfold build_knowledge_graph export_graph_data Graph.numberOfNodes Graph.numberOfEdges
  simp [List.length_map]

/-! ## Claim C5 — centrality ranker -/

/-- C5 (counterexample): on a 1-node graph the ranker does **not**
return an empty list.  The guard in `_identify_key_nodes` only catches
0 nodes; with the centrality values `networkx` produces on a single
node (degree centrality 1, betweenness 0, pagerank 1) the result is a
singleton. -/
theorem C5_counterexample :
    identify_key_nodes (fun _ => 1) (fun _ => 0) (fun _ => 1) (add_nodes {} [p90]) 10 ≠ [] := by
  decide

/-- C5 (amended): the ranker returns exactly `min N node_count` records
sorted by descending composite score — so it is empty on a 0-node graph
but a singleton, not empty, on a 1-node graph.  Holds for any values of
the three centrality maps. -/
theorem C5_amended_length_sorted (dc bc pr : String → ℚ) (g : Graph) (top_n : Nat) :
    (identify_key_nodes dc bc pr g top_n).length = min top_n g.numberOfNodes ∧
    (identify_key_nodes dc bc pr g top_n).Pairwise
      (fun a b => b.importance_score ≤ a.importance_score) := by
  unfold identify_key_nodes
  by_cases h0 : g.numberOfNodes = 0
  · rw [if_pos h0, h0]
    simp
  · rw [if_neg h0]
    constructor
    · rw [List.length_map, List.length_take, length_sortDesc, List.length_map]
      rfl
    · have hsorted := sortDesc_pairwise (fun x : String × ℚ => x.2)
        (g.nodes.map (fun p => (p.1, dc p.1 * (3/10) + bc p.1 * (3/10) + pr p.1 * (2/5))))
      have htake := hsorted.sublist (List.take_sublist top_n _)
      exact htake.map _ (fun a b hab => hab)

/-! ## Claim C9 — no eager validation of caller misuse -/

/-- C9 (counterexample): a negative `max_nodes` is not rejected: the
call completes normally, and the Python slice `[: -1]` silently drops
the worst-quality document, leaving 1 node out of 2 — no validation
error is ever raised (the model is a total function precisely because
the source raises nothing). -/
theorem C9_counterexample :
    (build_knowledge_graph fns0 [p90, p70] true true (some (-1)) (3/10)).nodes = 1 ∧
    [p90, p70].length = 2 := by
  constructor
  · decide
  · rfl

/-- C9 (amended): `build_knowledge_graph` performs no input validation;
a negative `max_nodes = m` is truthy and always smaller than the list
length, so the slice `[:m]` retains exactly `len(papers) - |m|`
documents (clamped at 0) and the build proceeds normally. -/
theorem C9_amended_negative_cap (papers : List Paper) (m : Int) (hm : m < 0) :
    (retainPapers papers (some m)).length = papers.length - m.natAbs := by
  unfold retainPapers
  dsimp only
  have hc : m ≠ 0 ∧ m < (papers.length : Int) := by
    constructor
    · exact ne_of_lt hm
    · exact lt_of_lt_of_le hm (by positivity)
  rw [if_pos hc]
  unfold pyTakeInt
  rw [if_neg (not_le.mpr hm), List.length_take, length_sortDesc]
  omega

/-- C9 witness: with two documents and `max_nodes = -1`, exactly one
document is retained. -/
theorem C9_amended_witness :
    ((-1 : Int) < 0) ∧ (retainPapers [p90, p70] (some (-1))).length = 1 := by
  refine ⟨by decide, ?_⟩
  have h := C9_amended_negative_cap [p90, p70] (-1) (by decide)
  simpa using h

/-! ## Edge-invariant machinery -/

/-- A property of edges survives `add_edge` if the new edge has it. -/
theorem addEdge_preserves_edgeP (P : Edge → Prop) (g : Graph) (u v : String) (t : String)
    (w : ℚ) (hP : P ⟨u, v, t, w⟩) (hg : ∀ e ∈ g.edges, P e) :
    ∀ e ∈ (g.addEdge u v t w).edges, P e := by
  intro e he
  rcases Graph.mem_addEdge g u v t w e he with rfl | he
  · exact hP
  · exact hg e he

theorem foldl_preserves_edgeP {β : Type} (P : Edge → Prop) (f : Graph → β → Graph) :
    ∀ (l : List β) (h : Graph),
      (∀ h' x, x ∈ l → (∀ e ∈ h'.edges, P e) → ∀ e ∈ (f h' x).edges, P e) →
      (∀ e ∈ h.edges, P e) → ∀ e ∈ (l.foldl f h).edges, P e := by
  intro l
  induction l with
  | nil => intro h _ hh; simpa
  | cons x xs ih =>
    intro h hstep hh
    exact ih (f h x) (fun h' y hy => hstep h' y (List.mem_cons_of_mem x hy))
      (hstep h x (List.mem_cons_self x xs) hh)

theorem Graph.addNode_edges (g : Graph) (k : String) (a : NodeAttrs) :
    (g.addNode k a).edges = g.edges := by
  unfold Graph.addNode
  by_cases h : g.nodes.any (fun p => p.1 = k) <;> simp [h]

theorem add_nodes_edges : ∀ (papers : List Paper) (g : Graph),
    (add_nodes g papers).edges = g.edges := by
  intro papers
  induction papers with
  | nil => intro g; rfl
  | cons p ps ih =>
    intro g
    show (add_nodes (g.addNode (paperKey p) (attrsOfPaper p)) ps).edges = g.edges
    rw [ih, Graph.addNode_edges]

theorem add_citation_edges_edgeP (P : Edge → Prop) (g : Graph) (papers : List Paper)
    (hnew : ∀ p ∈ papers, ∀ r ∈ p.references, P ⟨paperKey p, r, "citation", 1⟩)
    (hnew2 : ∀ p ∈ papers, ∀ c ∈ p.citations, P ⟨c, paperKey p, "citation", 1⟩)
    (hg : ∀ e ∈ g.edges, P e) :
    ∀ e ∈ (add_citation_edges g papers).edges, P e := by
  unfold add_citation_edges
  refine foldl_preserves_edgeP P _ papers g ?_ hg
  intro h p hpmem hh
  refine foldl_preserves_edgeP P _ p.citations _ ?_ ?_
  · intro h2 c hcmem hh2
    try dsimp only
    by_cases hc : c ≠ "" ∧ c ∈ g.nodeKeys
    · rw [if_pos hc]
      exact addEdge_preserves_edgeP P h2 c (paperKey p) "citation" 1
        (hnew2 p hpmem c hcmem) hh2
    · rw [if_neg hc]
      exact hh2
  · refine foldl_preserves_edgeP P _ p.references _ ?_ hh
    intro h2 r hrmem hh2
    try dsimp only
    by_cases hr : r ≠ "" ∧ r ∈ g.nodeKeys
    · rw [if_pos hr]
      exact addEdge_preserves_edgeP P h2 (paperKey p) r "citation" 1
        (hnew p hpmem r hrmem) hh2
    · rw [if_neg hr]
      exact hh2

theorem add_similarity_edges_edgeP (P : Edge → Prop) (g : Graph) (papers : List Paper)
    (thr : ℚ) (sim : Nat → Nat → ℚ)
    (hnew : ∀ i j, i < j →
      j < ((papers.filter hasText).map paperKey).length → thr ≤ sim i j →
      P ⟨((papers.filter hasText).map paperKey).getD i "",
         ((papers.filter hasText).map paperKey).getD j "", "similarity", sim i j⟩)
    (hg : ∀ e ∈ g.edges, P e) :
    ∀ e ∈ (add_similarity_edges g papers thr sim).edges, P e := by
  unfold add_similarity_edges
  by_cases h1 : papers.length < 2
  · rw [if_pos h1]; exact hg
  · rw [if_neg h1]
    try dsimp only
    by_cases h2 : ((papers.filter hasText).map paperKey).length < 2
    · rw [if_pos h2]; exact hg
    · rw [if_neg h2]
      refine foldl_preserves_edgeP P _ _ g ?_ hg
      intro h' ij hij hh'
      rcases (mem_simPairs _ ij).mp hij with ⟨hij1, hij2⟩
      try dsimp only
      by_cases hthr : thr ≤ sim ij.1 ij.2
      · rw [if_pos hthr]
        exact addEdge_preserves_edgeP P h' _ _ "similarity" (sim ij.1 ij.2)
          (hnew ij.1 ij.2 hij1 hij2 hthr) hh'
      · rw [if_neg hthr]
        exact hh'

/-! ## Claim C4 — self-loops -/

/-- C4 (counterexample): a document listing its own identifier among
its references produces a citation self-loop: the guard only checks
that the referenced id is truthy and is a node, which the paper's own
id always is. -/
theorem C4_counterexample :
    ¬ (∀ e ∈ (build_knowledge_graph fns0 [pSelf] true false none (3/10)).graph_data.edges,
        e.source ≠ e.target) := by
  decide

/-- C4 (amended): when document identities are pairwise distinct and no
document lists its own identifier among its references or citations, no
edge of the built graph is a self-loop.  (Similarity edges need the
distinctness: two documents sharing an identity would let the pair
`i < j` produce an edge from the id to itself.) -/
theorem C4_amended_no_selfloops (fns : LibFns) (papers : List Paper) (ic is : Bool)
    (mn : Option Int) (thr : ℚ)
    (hnd : (papers.map paperKey).Nodup)
    (hself : ∀ p ∈ papers, paperKey p ∉ p.references ∧ paperKey p ∉ p.citations) :
    ∀ e ∈ (build_knowledge_graph fns papers ic is mn thr).graph_data.edges,
      e.source ≠ e.target := by
  show ∀ e ∈ (export_graph_data (build_graph fns papers ic is mn thr)).edges, _
  unfold export_graph_data
  try dsimp only
  unfold build_graph
  set retained := retainPapers papers mn with hret
  have hnd' : (retained.map paperKey).Nodup := retainPapers_keys_nodup papers mn hnd
  have hself' : ∀ p ∈ retained, paperKey p ∉ p.references ∧ paperKey p ∉ p.citations :=
    fun p hp => hself p (retainPapers_subset hp)
  set g1 := add_nodes {} retained with hg1
  have hbase : ∀ e ∈ g1.edges, e.source ≠ e.target := by
    rw [hg1, add_nodes_edges]
    intro e he
    simp at he
  have h2 : ∀ e ∈ (if ic then add_citation_edges g1 retained else g1).edges,
      e.source ≠ e.target := by
    by_cases hic : ic
    · rw [if_pos hic]
      refine add_citation_edges_edgeP _ g1 retained ?_ ?_ hbase
      · intro p hp r hr heq
        have heq' : paperKey p = r := heq
        exact (hself' p hp).1 (heq'.symm ▸ hr)
      · intro p hp c hc heq
        have heq' : c = paperKey p := heq
        exact (hself' p hp).2 (heq' ▸ hc)
    · rw [if_neg hic]
      exact hbase
  by_cases his : is
  · rw [if_pos his]
    refine add_similarity_edges_edgeP _ _ retained thr fns.sim ?_ h2
    intro i j hij hjlen hthr
    set pids := (retained.filter hasText).map paperKey with hpids
    have hpidsnd : pids.Nodup := by
      rw [hpids]
      exact hnd'.sublist ((List.filter_sublist _).map paperKey)
    have hilen : i < pids.length := lt_trans hij hjlen
    show pids.getD i "" ≠ pids.getD j ""
    rw [List.getD_eq_getElem pids "" hilen, List.getD_eq_getElem pids "" hjlen]
    intro hcontra
    rw [hpidsnd.getElem_inj_iff] at hcontra
    omega
  · rw [if_neg his]
    exact h2

/-- C4 witness: a well-formed two-document corpus (distinct ids, no
self-references) builds a graph with no self-loop, via the amended
theorem. -/
theorem C4_amended_witness :
    (([p90, p70].map paperKey).Nodup ∧
      (∀ p ∈ [p90, p70], paperKey p ∉ p.references ∧ paperKey p ∉ p.citations)) ∧
    (∀ e ∈ (build_knowledge_graph fns0 [p90, p70] true true none (3/10)).graph_data.edges,
      e.source ≠ e.target) :=
  ⟨⟨by decide, by decide⟩,
    C4_amended_no_selfloops fns0 [p90, p70] true true none (3/10) (by decide) (by decide)⟩

/-! ## Claim C7 — quality cap tie-break

Stability of the sort, expressed on the index-tagged input: after
sorting, a pair earlier in the output either has strictly larger key or
the same key and a smaller input index. -/

def rankLt {α : Type} (key : α → ℚ) (a b : Nat × α) : Prop :=
  key b.2 < key a.2 ∨ (key a.2 = key b.2 ∧ a.1 < b.1)

theorem insDesc_rank_pairwise {α : Type} (key : α → ℚ) (p : Nat × α) (l : List (Nat × α))
    (hl : l.Pairwise (rankLt key)) (hidx : ∀ x ∈ l, x.1 < p.1) :
    (insDesc (fun x => key x.2) p l).Pairwise (rankLt key) := by
  induction l with
  | nil => simp [insDesc]
  | cons y ys ih =>
    rcases List.pairwise_cons.mp hl with ⟨hy, hys⟩
    by_cases h : key y.2 < key p.2
    · rw [show insDesc (fun x => key x.2) p (y :: ys) = p :: y :: ys by
        simp [insDesc, h]]
      refine List.pairwise_cons.mpr ⟨?_, hl⟩
      intro b hb
      rcases List.mem_cons.mp hb with rfl | hb
      · exact Or.inl h
      · rcases hy b hb with hlt | ⟨heq, _⟩
        · exact Or.inl (lt_trans hlt h)
        · exact Or.inl (heq ▸ h)
    · rw [show insDesc (fun x => key x.2) p (y :: ys) = y :: insDesc (fun x => key x.2) p ys by
        simp [insDesc, h]]
      refine List.pairwise_cons.mpr ⟨?_, ih hys (fun x hx => hidx x (List.mem_cons_of_mem y hx))⟩
      intro b hb
      rcases (mem_insDesc (fun x => key x.2) p ys b).mp hb with rfl | hb
      · rcases lt_or_eq_of_le (le_of_not_lt h) with hlt | heq
        · exact Or.inl hlt
        · exact Or.inr ⟨heq.symm, hidx y (List.mem_cons_self y ys)⟩
      · exact hy b hb

theorem foldl_rank_pairwise {α : Type} (key : α → ℚ) :
    ∀ (l acc : List (Nat × α)), l.Pairwise (fun a b => a.1 < b.1) →
      acc.Pairwise (rankLt key) → (∀ x ∈ acc, ∀ y ∈ l, x.1 < y.1) →
      (l.foldl (fun acc x => insDesc (fun x => key x.2) x acc) acc).Pairwise (rankLt key) := by
  intro l
  induction l with
  | nil => intro acc _ hacc _; simpa
  | cons p ps ih =>
    intro acc hl hacc hcross
    rcases List.pairwise_cons.mp hl with ⟨hp, hps⟩
    refine ih (insDesc (fun x => key x.2) p acc) hps ?_ ?_
    · exact insDesc_rank_pairwise key p acc hacc
        (fun x hx => hcross x hx p (List.mem_cons_self p ps))
    · intro x hx y hy
      rcases (mem_insDesc (fun x => key x.2) p acc x).mp hx with rfl | hx
      · exact hp y hy
      · exact hcross x hx y (List.mem_cons_of_mem p hy)

theorem enum_pairwise_fst {α : Type} (l : List α) :
    l.enum.Pairwise (fun a b => a.1 < b.1) := by
  rw [List.pairwise_iff_getElem]
  intro i j hi hj hij
  rw [List.getElem_enum, List.getElem_enum]
  exact hij

/-- The stable descending sort of the index-tagged list is sorted for
the lexicographic "better quality, or equal quality and earlier input
position" order. -/
theorem sortDesc_enum_rank_pairwise {α : Type} (key : α → ℚ) (l : List α) :
    (sortDesc (fun x : Nat × α => key x.2) l.enum).Pairwise (rankLt key) :=
  foldl_rank_pairwise key l.enum [] (enum_pairwise_fst l) (by simp) (by simp)

/-- Mapping under the sort commutes when the key factors through the
map. -/
theorem insDesc_map {α β : Type} (f : α → β) (k : β → ℚ) (x : α) (l : List α) :
    (insDesc (fun a => k (f a)) x l).map f = insDesc k (f x) (l.map f) := by
  induction l with
  | nil => simp [insDesc]
  | cons y ys ih =>
    by_cases h : k (f y) < k (f x)
    · simp [insDesc, h]
    · simp [insDesc, h, ih]

theorem sortDesc_map {α β : Type} (f : α → β) (k : β → ℚ) (l : List α) :
    (sortDesc (fun a => k (f a)) l).map f = sortDesc k (l.map f) := by
  unfold sortDesc
  suffices haux : ∀ (l acc : List α),
      (l.foldl (fun acc x => insDesc (fun a => k (f a)) x acc) acc).map f =
        (l.map f).foldl (fun acc x => insDesc k x acc) (acc.map f) by
    simpa using haux l []
  intro l'
  induction l' with
  | nil => intro acc; simp
  | cons x xs ih =>
    intro acc
    simp only [List.foldl_cons, List.map_cons]
    rw [ih, insDesc_map]

/-- C7 (counterexample): swapping two equal-quality documents in the
input changes which one the cap retains — the sort is stable, so ties
are broken by insertion order, not by identity. -/
theorem C7_counterexample :
    (retainPapers [pX5, pY5] (some 1)).map paperKey ≠
      (retainPapers [pY5, pX5] (some 1)).map paperKey := by
  decide

/-- C7 (amended): with `0 < cap < len(papers)` the cap retains exactly
`cap` documents — the prefix of the stable descending-quality sort —
and every retained document beats every dropped one either strictly in
quality or, on a tie, by an earlier input position.  Ties are thus
broken by insertion order (stable sort), not by document identity. -/
theorem C7_amended_stable_tiebreak (papers : List Paper) (cap : Nat)
    (h1 : 0 < cap) (h2 : cap < papers.length) :
    (retainPapers papers (some (cap : Int))).length = cap ∧
    retainPapers papers (some (cap : Int)) =
      ((sortDesc (fun x : Nat × Paper => x.2.quality_score) papers.enum).take cap).map
        Prod.snd ∧
    ∀ a ∈ (sortDesc (fun x : Nat × Paper => x.2.quality_score) papers.enum).take cap,
      ∀ b ∈ (sortDesc (fun x : Nat × Paper => x.2.quality_score) papers.enum).drop cap,
        b.2.quality_score < a.2.quality_score ∨
          (a.2.quality_score = b.2.quality_score ∧ a.1 < b.1) := by
  have hretain : retainPapers papers (some (cap : Int)) =
      (sortDesc (fun p => p.quality_score) papers).take cap := by
    unfold retainPapers
    try dsimp only
    have hc : (cap : Int) ≠ 0 ∧ (cap : Int) < (papers.length : Int) := by
      constructor
      · exact_mod_cast Nat.pos_iff_ne_zero.mp h1
      · exact_mod_cast h2
    rw [if_pos hc]
    unfold pyTakeInt
    rw [if_pos (by positivity), Int.toNat_natCast]
  have hmapsnd : ((sortDesc (fun x : Nat × Paper => x.2.quality_score) papers.enum).take
      cap).map Prod.snd = (sortDesc (fun p => p.quality_score) papers).take cap := by
    rw [List.map_take, sortDesc_map Prod.snd (fun p => p.quality_score) papers.enum,
      List.enum_map_snd]
  refine ⟨?_, by rw [hretain, hmapsnd], ?_⟩
  · rw [hretain, List.length_take, length_sortDesc]
    omega
  · have hpw := sortDesc_enum_rank_pairwise (fun p : Paper => p.quality_score) papers
    set s := sortDesc (fun x : Nat × Paper => x.2.quality_score) papers.enum with hs
    have hsplit := List.take_append_drop cap s
    rw [← hsplit] at hpw
    exact (List.pairwise_append.mp hpw).2.2

/-- C7 witness: at `cap = 1` on the two equal-quality documents the
amended theorem applies, retaining exactly one document. -/
theorem C7_amended_witness :
    (0 < 1 ∧ 1 < [pX5, pY5].length) ∧
    (retainPapers [pX5, pY5] (some (1 : Int))).length = 1 :=
  ⟨⟨by decide, by decide⟩,
    (C7_amended_stable_tiebreak [pX5, pY5] 1 (by decide) (by decide)).1⟩

/-! ## Similarity-edge characterization (for C3 and C8) -/

/-- The graph holds a similarity-typed edge from `s` to `t`. -/
def hasSimEdge (g : Graph) (s t : String) : Prop :=
  ∃ e ∈ g.edges, e.source = s ∧ e.target = t ∧ e.etype = "similarity"

theorem foldl_preserves_graphP {β : Type} (Q : Graph → Prop) (f : Graph → β → Graph) :
    ∀ (l : List β) (h : Graph), (∀ h' x, x ∈ l → Q h' → Q (f h' x)) → Q h →
      Q (l.foldl f h) := by
  intro l
  induction l with
  | nil => intro h _ hh; simpa
  | cons x xs ih =>
    intro h hstep hh
    exact ih (f h x) (fun h' y hy => hstep h' y (List.mem_cons_of_mem x hy))
      (hstep h x (List.mem_cons_self x xs) hh)

theorem foldl_establishes_graphP {β : Type} (Q : Graph → Prop) (f : Graph → β → Graph) :
    ∀ (l : List β) (h : Graph) (x : β), x ∈ l → (∀ h', Q (f h' x)) →
      (∀ h' y, y ∈ l → Q h' → Q (f h' y)) → Q (l.foldl f h) := by
  intro l
  induction l with
  | nil => intro h x hx; exact absurd hx (List.not_mem_nil x)
  | cons z zs ih =>
    intro h x hx hest hpres
    rcases List.mem_cons.mp hx with rfl | hx
    · exact foldl_preserves_graphP Q f zs (f h x)
        (fun h' y hy => hpres h' y (List.mem_cons_of_mem x hy)) (hest h)
    · exact ih (f h z) x hx hest (fun h' y hy => hpres h' y (List.mem_cons_of_mem z hy))

/-- Adding any similarity-typed edge preserves every similarity-edge
fact (an overwrite at the same key rewrites it with the same
source, target and type). -/
theorem hasSimEdge_addEdge (g : Graph) (u v s t : String) (w : ℚ)
    (h : hasSimEdge g s t) : hasSimEdge (g.addEdge u v "similarity" w) s t := by
  obtain ⟨e, he, hes, het, hety⟩ := h
  unfold Graph.addEdge
  set g' := (g.ensureNode u).ensureNode v with hg'
  have hedges : g'.edges = g.edges := by
    rw [hg', Graph.ensureNode_edges, Graph.ensureNode_edges]
  by_cases hk : g'.edges.any (fun e => e.source = u && e.target = v)
  · rw [if_pos hk]
    refine ⟨if e.source = u && e.target = v then ⟨u, v, "similarity", w⟩ else e, ?_, ?_⟩
    · exact List.mem_map_of_mem _ (hedges ▸ he)
    · by_cases hm : e.source = u && e.target = v
      · rw [if_pos hm]
        rcases Bool.and_eq_true .. |>.mp hm with ⟨h1, h2⟩
        exact ⟨(of_decide_eq_true h1).symm.trans hes,
          (of_decide_eq_true h2).symm.trans het, rfl⟩
      · rw [if_neg hm]
        exact ⟨hes, het, hety⟩
  · rw [if_neg hk]
    exact ⟨e, List.mem_append_left _ (hedges ▸ he), hes, het, hety⟩

/-- `add_edge(u, v, type='similarity', ...)` leaves a similarity edge
at `(u, v)`, whether it inserted or overwrote. -/
theorem hasSimEdge_addEdge_self (g : Graph) (u v : String) (w : ℚ) :
    hasSimEdge (g.addEdge u v "similarity" w) u v := by
  unfold Graph.addEdge
  set g' := (g.ensureNode u).ensureNode v with hg'
  by_cases hk : g'.edges.any (fun e => e.source = u && e.target = v)
  · rw [if_pos hk]
    rcases List.any_eq_true.mp hk with ⟨e, he, hm⟩
    refine ⟨if e.source = u && e.target = v then ⟨u, v, "similarity", w⟩ else e,
      List.mem_map_of_mem _ he, ?_⟩
    rw [if_pos hm]
    exact ⟨rfl, rfl, rfl⟩
  · rw [if_neg hk]
    exact ⟨⟨u, v, "similarity", w⟩, List.mem_append_right _ (List.mem_singleton_self _),
      rfl, rfl, rfl⟩

/-- Forward half of the similarity-phase characterization: each
qualifying pair leaves a similarity edge between its ids. -/
theorem add_similarity_edges_creates (g : Graph) (papers : List Paper) (thr : ℚ)
    (sim : Nat → Nat → ℚ) (i j : Nat) (hij : i < j)
    (hjlen : j < ((papers.filter hasText).map paperKey).length)
    (hthr : thr ≤ sim i j) :
    hasSimEdge (add_similarity_edges g papers thr sim)
      (((papers.filter hasText).map paperKey).getD i "")
      (((papers.filter hasText).map paperKey).getD j "") := by
  unfold add_similarity_edges
  set pids := (papers.filter hasText).map paperKey with hpids
  have hp2 : ¬ pids.length < 2 := by omega
  have hlenle : pids.length ≤ papers.length := by
    rw [hpids, List.length_map]
    exact List.length_filter_le _ _
  have hpap2 : ¬ papers.length < 2 := by omega
  rw [if_neg hpap2]
  try dsimp only
  rw [if_neg hp2]
  refine foldl_establishes_graphP
    (fun h => hasSimEdge h (pids.getD i "") (pids.getD j "")) _
    (simPairs pids.length) g (i, j) ((mem_simPairs _ _).mpr ⟨hij, hjlen⟩) ?_ ?_
  · intro h'
    try dsimp only
    rw [if_pos hthr]
    exact hasSimEdge_addEdge_self h' _ _ _
  · intro h' y _ hq
    try dsimp only
    by_cases hy : thr ≤ sim y.1 y.2
    · rw [if_pos hy]
      exact hasSimEdge_addEdge h' _ _ _ _ _ hq
    · rw [if_neg hy]
      exact hq

/-- Backward half: a similarity-typed edge of the result that was not
already in the start graph records a qualifying pair — its endpoints
are `ids[i]`, `ids[j]` with `i < j` and its weight is their
similarity, which reached the threshold. -/
theorem add_similarity_edges_sound (g : Graph) (papers : List Paper) (thr : ℚ)
    (sim : Nat → Nat → ℚ) (hg : ∀ e ∈ g.edges, e.etype ≠ "similarity") :
    ∀ e ∈ (add_similarity_edges g papers thr sim).edges, e.etype = "similarity" →
      ∃ i j, i < j ∧ j < ((papers.filter hasText).map paperKey).length ∧
        thr ≤ sim i j ∧
        e.source = ((papers.filter hasText).map paperKey).getD i "" ∧
        e.target = ((papers.filter hasText).map paperKey).getD j "" ∧
        e.weight = sim i j := by
  refine add_similarity_edges_edgeP _ g papers thr sim ?_ ?_
  · intro i j hij hjlen hthr _
    exact ⟨i, j, hij, hjlen, hthr, rfl, rfl, rfl⟩
  · intro e he hety
    exact absurd hety (hg e he)

/-- In the built graph, every edge present before the similarity phase
is citation-typed. -/
theorem pre_similarity_edges_citation (g1 : Graph) (retained : List Paper) (ic : Bool)
    (hbase : ∀ e ∈ g1.edges, e.etype = "citation") :
    ∀ e ∈ (if ic then add_citation_edges g1 retained else g1).edges, e.etype = "citation" := by
  by_cases hic : ic
  · rw [if_pos hic]
    refine add_citation_edges_edgeP _ g1 retained ?_ ?_ hbase
    · intro _ _ _ _; rfl
    · intro _ _ _ _; rfl
  · rw [if_neg hic]
    exact hbase

/-- Like `fns0` but with every pairwise similarity equal to 1. -/
def fns1 : LibFns := { fns0 with sim := fun _ _ => 1 }

/-! ## Claim C3 — threshold monotonicity -/

/-- C3: on identical input, any similarity edge produced by a run with
the higher threshold is also produced by a run with the lower
threshold: the graph before the similarity phase does not depend on the
threshold, and a pair whose similarity reaches the higher threshold
also reaches the lower one. -/
theorem C3_threshold_monotone (fns : LibFns) (papers : List Paper) (ic is : Bool)
    (mn : Option Int) (tLow tHigh : ℚ) (hle : tLow ≤ tHigh) (s t : String)
    (h : ∃ e ∈ (build_knowledge_graph fns papers ic is mn tHigh).graph_data.edges,
      e.source = s ∧ e.target = t ∧ e.etype = "similarity") :
    ∃ e ∈ (build_knowledge_graph fns papers ic is mn tLow).graph_data.edges,
      e.source = s ∧ e.target = t ∧ e.etype = "similarity" := by
  have hh : hasSimEdge (build_graph fns papers ic is mn tHigh) s t := h
  suffices hs : hasSimEdge (build_graph fns papers ic is mn tLow) s t from hs
  unfold build_graph at hh ⊢
  set retained := retainPapers papers mn with hret
  set g1 := add_nodes {} retained with hg1
  set g2 := if ic then add_citation_edges g1 retained else g1 with hg2
  by_cases his : is
  · rw [if_pos his] at hh ⊢
    have hbase : ∀ e ∈ g1.edges, e.etype = "citation" := by
      intro e he
      rw [hg1, add_nodes_edges] at he
      exact absurd he (List.not_mem_nil e)
    have hg2cit : ∀ e ∈ g2.edges, e.etype ≠ "similarity" := by
      intro e he
      have hc := pre_similarity_edges_citation g1 retained ic hbase e (hg2 ▸ he)
      rw [hc]
      decide
    obtain ⟨e, he, hes, het, hety⟩ := hh
    obtain ⟨i, j, hij, hjlen, hthr, hsrc, htgt, _⟩ :=
      add_similarity_edges_sound g2 retained tHigh fns.sim hg2cit e he hety
    have hcreate := add_similarity_edges_creates g2 retained tLow fns.sim i j hij hjlen
      (le_trans hle hthr)
    rw [hsrc.symm.trans hes, htgt.symm.trans het] at hcreate
    exact hcreate
  · rw [if_neg his] at hh ⊢
    exact hh

/-- C3 witness: with constant similarity 1, the edge produced at
threshold 1 is reproduced at threshold 0. -/
theorem C3_witness :
    ((0 : ℚ) ≤ 1) ∧
    (∃ e ∈ (build_knowledge_graph fns1 [p90, p70] true true none 0).graph_data.edges,
      e.source = "A" ∧ e.target = "B" ∧ e.etype = "similarity") :=
  ⟨by norm_num,
    C3_threshold_monotone fns1 [p90, p70] true true none 0 1 (by norm_num)
      "A" "B" (by decide)⟩

/-! ## Claim C8 — similarity edge contract -/

/-- C8: under the cosine-similarity contract (`sim ∈ [0,1]`, what
scikit-learn guarantees for TF-IDF vectors) and distinct document
identities, every similarity edge has weight within `[0,1]` and at
least the threshold, and an unordered pair of ids carries at most one
similarity edge, stored in one direction only. -/
theorem C8_similarity_edge_contract (fns : LibFns) (papers : List Paper) (ic is : Bool)
    (mn : Option Int) (thr : ℚ)
    (hsim : ∀ i j, 0 ≤ fns.sim i j ∧ fns.sim i j ≤ 1)
    (hnd : (papers.map paperKey).Nodup) :
    (∀ e ∈ (build_knowledge_graph fns papers ic is mn thr).graph_data.edges,
      e.etype = "similarity" → thr ≤ e.weight ∧ 0 ≤ e.weight ∧ e.weight ≤ 1) ∧
    (∀ e ∈ (build_knowledge_graph fns papers ic is mn thr).graph_data.edges,
      ∀ e' ∈ (build_knowledge_graph fns papers ic is mn thr).graph_data.edges,
      e.etype = "similarity" → e'.etype = "similarity" →
      ((e.source = e'.source ∧ e.target = e'.target) ∨
        (e.source = e'.target ∧ e.target = e'.source)) → e = e') := by
  suffices hG :
      (∀ e ∈ (build_graph fns papers ic is mn thr).edges,
        e.etype = "similarity" → thr ≤ e.weight ∧ 0 ≤ e.weight ∧ e.weight ≤ 1) ∧
      (∀ e ∈ (build_graph fns papers ic is mn thr).edges,
        ∀ e' ∈ (build_graph fns papers ic is mn thr).edges,
        e.etype = "similarity" → e'.etype = "similarity" →
        ((e.source = e'.source ∧ e.target = e'.target) ∨
          (e.source = e'.target ∧ e.target = e'.source)) → e = e') from hG
  unfold build_graph
  set retained := retainPapers papers mn with hret
  set g1 := add_nodes {} retained with hg1
  set g2 := if ic then add_citation_edges g1 retained else g1 with hg2
  have hbase : ∀ e ∈ g1.edges, e.etype = "citation" := by
    intro e he
    rw [hg1, add_nodes_edges] at he
    exact absurd he (List.not_mem_nil e)
  have hg2cit : ∀ e ∈ g2.edges, e.etype ≠ "similarity" := by
    intro e he
    have hc := pre_similarity_edges_citation g1 retained ic hbase e (hg2 ▸ he)
    rw [hc]
    decide
  by_cases his : is
  case neg =>
    rw [if_neg his]
    exact ⟨fun e he hety => absurd hety (hg2cit e he),
      fun e he e' he' hety => absurd hety (hg2cit e he)⟩
  case pos =>
    rw [if_pos his]
    have hsound := add_similarity_edges_sound g2 retained thr fns.sim hg2cit
    set pids := (retained.filter hasText).map paperKey with hpids
    have hpidsnd : pids.Nodup := by
      rw [hpids]
      exact (retainPapers_keys_nodup papers mn hnd).sublist
        ((List.filter_sublist _).map paperKey)
    constructor
    · intro e he hety
      obtain ⟨i, j, _, _, hthr, _, _, hw⟩ := hsound e he hety
      rw [hw]
      exact ⟨hthr, (hsim i j).1, (hsim i j).2⟩
    · intro e he e' he' hety hety' hpair
      obtain ⟨i, j, hij, hjlen, hthr, hsrc, htgt, hw⟩ := hsound e he hety
      obtain ⟨i', j', hij', hjlen', hthr', hsrc', htgt', hw'⟩ := hsound e' he' hety'
      have hilen : i < pids.length := lt_trans hij hjlen
      have hilen' : i' < pids.length := lt_trans hij' hjlen'
      rw [List.getD_eq_getElem pids "" hilen] at hsrc
      rw [List.getD_eq_getElem pids "" hjlen] at htgt
      rw [List.getD_eq_getElem pids "" hilen'] at hsrc'
      rw [List.getD_eq_getElem pids "" hjlen'] at htgt'
      rcases hpair with ⟨h1, h2⟩ | ⟨h1, h2⟩
      · have hii : i = i' := by
          rw [← hpidsnd.getElem_inj_iff]
          exact (hsrc.symm.trans (h1.trans hsrc'))
        have hjj : j = j' := by
          rw [← hpidsnd.getElem_inj_iff]
          exact (htgt.symm.trans (h2.trans htgt'))
        obtain ⟨es, et, ety, ew⟩ := e
        obtain ⟨es', et', ety', ew'⟩ := e'
        simp only at hsrc htgt hw hsrc' htgt' hw' hety hety'
        subst hii hjj
        rw [hsrc, htgt, hw, hety, hsrc', htgt', hw', hety']
      · exfalso
        have hij2 : i = j' := by
          rw [← hpidsnd.getElem_inj_iff]
          exact (hsrc.symm.trans (h1.trans htgt'))
        have hji2 : j = i' := by
          rw [← hpidsnd.getElem_inj_iff]
          exact (htgt.symm.trans (h2.trans hsrc'))
        omega

/-- C8 witness: a concrete run at threshold 1 with constant
similarity 1 and distinct ids satisfies the weight contract. -/
theorem C8_witness :
    ((∀ i j : Nat, 0 ≤ fns1.sim i j ∧ fns1.sim i j ≤ 1) ∧
      ([p90, p70].map paperKey).Nodup) ∧
    (∀ e ∈ (build_knowledge_graph fns1 [p90, p70] true true none 1).graph_data.edges,
      e.etype = "similarity" → (1 : ℚ) ≤ e.weight ∧ 0 ≤ e.weight ∧ e.weight ≤ 1) := by
  have hsim : ∀ i j : Nat, 0 ≤ fns1.sim i j ∧ fns1.sim i j ≤ 1 := by
    intro i j
    constructor <;> norm_num [fns1, fns0]
  exact ⟨⟨hsim, by decide⟩,
    (C8_similarity_edge_contract fns1 [p90, p70] true true none 1 hsim (by decide)).1⟩

/-! ## Claim C2 — clusters partition the node set -/

/-- One merge step preserves the multiset of member nodes. -/
theorem mergeComp_flatten_perm (comps : List (List String)) (u v : String) :
    (mergeComp comps u v).flatten.Perm comps.flatten := by
  unfold mergeComp
  try dsimp only
  by_cases h : (comps.filter (fun c => c.contains u || c.contains v)).length ≤ 1
  · rw [if_pos h]
  · rw [if_neg h]
    have hsplit : ((comps.filter (fun c => c.contains u || c.contains v)) ++
        (comps.filter (fun c => !(c.contains u || c.contains v)))).Perm comps :=
      List.filter_append_perm _ comps
    rw [List.flatten_cons, ← List.flatten_append]
    exact hsplit.flatten

theorem flatten_map_singleton (l : List String) : (l.map (fun k => [k])).flatten = l := by
  induction l with
  | nil => rfl
  | cons a t ih => simp [ih]

/-- The members of all components together are exactly the node ids
(as a multiset). -/
theorem connectedComponents_flatten_perm (g : Graph) :
    (connectedComponents g).flatten.Perm g.nodeKeys := by
  unfold connectedComponents
  suffices haux : ∀ (es : List Edge) (comps : List (List String)),
      (es.foldl (fun comps e => mergeComp comps e.source e.target) comps).flatten.Perm
        comps.flatten by
    exact (haux g.edges _).trans (by rw [flatten_map_singleton])
  intro es
  induction es with
  | nil => intro comps; rfl
  | cons e t ih =>
    intro comps
    exact (ih (mergeComp comps e.source e.target)).trans
      (mergeComp_flatten_perm comps e.source e.target)

/-- C2 (counterexample): a 1-node graph reports **no** clusters (the
`< 2` guard), so its node belongs to no reported cluster and the union
of the reported member lists is not the node set. -/
theorem C2_counterexample :
    (build_knowledge_graph fns0 [p90] true true none (3/10)).clusters = [] ∧
    (build_knowledge_graph fns0 [p90] true true none (3/10)).graph_data.nodes ≠ [] := by
  constructor
  · decide
  · decide

/-- C2 (amended): for a graph with at least 2 nodes, at most
`max_clusters` components, and every component of size at most 10 (so
neither reporting cap truncates), the reported member lists together
are a permutation of the node set — every node is in exactly one
reported cluster.  (Community detection is modelled by the in-repo
connected-component fallback; in general the report caps at
`max_clusters` clusters of at most 10 listed members each.) -/
theorem C2_amended_partition (themeFn : List String → String) (g : Graph) (maxC : Nat)
    (h2 : 2 ≤ g.numberOfNodes)
    (hcnt : (connectedComponents g).length ≤ maxC)
    (hsize : ∀ c ∈ connectedComponents g, c.length ≤ 10) :
    (((identify_clusters themeFn g maxC).map (fun cl => cl.nodes)).flatten).Perm
      g.nodeKeys ∧
    (g.nodeKeys.Nodup → ∀ x ∈ g.nodeKeys,
      (((identify_clusters themeFn g maxC).map (fun cl => cl.nodes)).flatten).count x = 1) := by
  have hperm : (((identify_clusters themeFn g maxC).map (fun cl => cl.nodes)).flatten).Perm
      g.nodeKeys := by
    unfold identify_clusters
    rw [if_neg (by omega : ¬ g.numberOfNodes < 2)]
    unfold simple_clustering
    try dsimp only
    set s := sortDesc (fun c => ((c.length : ℚ))) (connectedComponents g) with hs
    have hlens : s.length = (connectedComponents g).length := length_sortDesc _ _
    have htake : s.take maxC = s := List.take_of_length_le (by omega)
    rw [htake]
    have hm1 : (s.enum.map (fun ic =>
        ({ cluster_id := ic.1, size := ic.2.length, nodes := ic.2.take 10,
           theme := extract_cluster_theme themeFn (clusterTexts g ic.2) } : Cluster))).map
          (fun cl => cl.nodes) = s.enum.map (fun ic => ic.2.take 10) := by
      rw [List.map_map]
      exact List.map_congr_left (fun ic _ => rfl)
    rw [hm1]
    have hm2 : s.enum.map (fun ic => ic.2.take 10) = s.map (fun c => c.take 10) := by
      have : s.enum.map (fun ic => ic.2.take 10) =
          (s.enum.map Prod.snd).map (fun c => c.take 10) := by
        rw [List.map_map]
        exact List.map_congr_left (fun ic _ => rfl)
      rw [this, List.enum_map_snd]
    rw [hm2]
    have hm3 : s.map (fun c => c.take 10) = s := by
      have : s.map (fun c => c.take 10) = s.map id := by
        refine List.map_congr_left (fun c hc => ?_)
        have hcm : c ∈ connectedComponents g := (mem_sortDesc _ _ c).mp hc
        exact List.take_of_length_le (hsize c hcm)
      rw [this, List.map_id]
    rw [hm3]
    exact ((sortDesc_perm _ _).flatten).trans (connectedComponents_flatten_perm g)
  refine ⟨hperm, fun hnd x hx => ?_⟩
  rw [hperm.count_eq]
  exact List.count_eq_one_of_mem hnd hx

/-- C2 witness: two isolated nodes, two singleton components, no cap
hit — the reported members are exactly the node set. -/
theorem C2_amended_witness :
    (2 ≤ (add_nodes {} [p90, p70]).numberOfNodes ∧
      (connectedComponents (add_nodes {} [p90, p70])).length ≤ 10 ∧
      (∀ c ∈ connectedComponents (add_nodes {} [p90, p70]), c.length ≤ 10)) ∧
    (((identify_clusters fns0.themeFn (add_nodes {} [p90, p70]) 10).map
        (fun cl => cl.nodes)).flatten).Perm (add_nodes {} [p90, p70]).nodeKeys :=
  ⟨⟨by decide, by decide, by decide⟩,
    (C2_amended_partition fns0.themeFn (add_nodes {} [p90, p70]) 10
      (by decide) (by decide) (by decide)).1⟩

/-! ## Claim C6 — evolution-path boundary years -/

theorem sortAscNat_perm (l : List Nat) : (sortAscNat l).Perm l :=
  sortDesc_perm _ l

theorem sortAscNat_pairwise (l : List Nat) :
    (sortAscNat l).Pairwise (fun a b => a ≤ b) := by
  have h := sortDesc_pairwise (fun y : Nat => -(y : ℚ)) l
  refine h.imp ?_
  intro a b hab
  have hq : (a : ℚ) ≤ (b : ℚ) := by linarith
  exact_mod_cast hq

theorem getLastD_mem : ∀ (l : List Nat) (d : Nat), l ≠ [] → l.getLastD d ∈ l := by
  intro l
  induction l with
  | nil => intro d h; exact absurd rfl h
  | cons a t ih =>
    intro d _
    cases t with
    | nil => exact List.mem_singleton_self a
    | cons b t' =>
      rw [List.getLastD_cons]
      exact List.mem_cons_of_mem a (ih a (by simp))

theorem pairwise_le_getLastD : ∀ (l : List Nat) (d : Nat),
    l.Pairwise (fun a b => a ≤ b) → ∀ x ∈ l, x ≤ l.getLastD d := by
  intro l
  induction l with
  | nil => intro d _ x hx; exact absurd hx (List.not_mem_nil x)
  | cons a t ih =>
    intro d hp x hx
    rcases List.pairwise_cons.mp hp with ⟨ha, ht⟩
    rw [List.getLastD_cons]
    rcases List.mem_cons.mp hx with rfl | hx
    · by_cases hT : t = []
      · subst hT
        exact le_refl x
      · exact ha _ (getLastD_mem t x hT)
    · exact ih a ht x hx

theorem find?_assoc : ∀ (l : List (String × NodeAttrs)), (l.map Prod.fst).Nodup →
    ∀ {k : String} {a : NodeAttrs}, (k, a) ∈ l →
      l.find? (fun p => p.1 = k) = some (k, a) := by
  intro l
  induction l with
  | nil => intro _ k a h; exact absurd h (List.not_mem_nil _)
  | cons p t ih =>
    intro hnd k a h
    rw [List.map_cons, List.nodup_cons] at hnd
    rcases List.mem_cons.mp h with rfl | hmem
    · exact List.find?_cons_of_pos _ (by simp)
    · by_cases hk : p.1 = k
      · exact absurd (List.mem_map.mpr ⟨(k, a), hmem, rfl⟩) (hk ▸ hnd.1)
      · rw [List.find?_cons_of_neg _ (by simpa using hk)]
        exact ih hnd.2 hmem

/-- With duplicate-free node ids, attribute lookup returns the stored
attributes. -/
theorem attrsOf_of_mem (g : Graph) (hnd : g.nodeKeys.Nodup) {k : String} {a : NodeAttrs}
    (h : (k, a) ∈ g.nodes) : g.attrsOf k = a := by
  unfold Graph.attrsOf
  rw [find?_assoc g.nodes hnd h]
  rfl

theorem mem_nodesWithYear {g : Graph} {y : Nat} {s : String} (h : s ∈ nodesWithYear g y) :
    ∃ a, (s, a) ∈ g.nodes ∧ a.year = y := by
  unfold nodesWithYear at h
  rcases List.mem_filterMap.mp h with ⟨p, hp, heq⟩
  by_cases hy : p.2.year = y
  · rw [if_pos hy] at heq
    injection heq with heq
    refine ⟨p.2, ?_, hy⟩
    rw [← heq]
    exact hp
  · rw [if_neg hy] at heq
    exact absurd heq (by simp)

theorem foldl_preserves_allP {γ β : Type} (P : γ → Prop) (f : List γ → β → List γ) :
    ∀ (l : List β) (acc : List γ),
      (∀ acc' x, x ∈ l → (∀ a ∈ acc', P a) → ∀ a ∈ f acc' x, P a) →
      (∀ a ∈ acc, P a) → ∀ a ∈ l.foldl f acc, P a := by
  intro l
  induction l with
  | nil => intro acc _ hacc; simpa
  | cons x xs ih =>
    intro acc hstep hacc
    exact ih (f acc x) (fun acc' y hy => hstep acc' y (List.mem_cons_of_mem x hy))
      (hstep acc x (List.mem_cons_self x xs) hacc)

/-- C6: the path analyzer returns nothing when fewer than 2 distinct
populated years exist; and every returned path starts at a node of the
minimum populated year and ends at a node of the maximum populated
year. -/
theorem C6_evolution_boundaries (g : Graph) (sp : String → String → Option (List String))
    (max_paths : Nat) (hnd : g.nodeKeys.Nodup)
    (hsp : ∀ s t p, sp s t = some p → p.head? = some s ∧ p.getLast? = some t) :
    ((distinctYears g).length < 2 → analyze_evolution_paths sp g max_paths = []) ∧
    (∀ pi ∈ analyze_evolution_paths sp g max_paths, ∃ y0 y1,
      pi.nodes.head?.map PathNode.year = some y0 ∧
      pi.nodes.getLast?.map PathNode.year = some y1 ∧
      y0 ∈ populatedYears g ∧ y1 ∈ populatedYears g ∧
      ∀ y ∈ populatedYears g, y0 ≤ y ∧ y ≤ y1) := by
  unfold analyze_evolution_paths
  by_cases hn : g.numberOfNodes < 2
  · rw [if_pos hn]
    exact ⟨fun _ => rfl, fun pi hpi => absurd hpi (List.not_mem_nil pi)⟩
  · rw [if_neg hn]
    try dsimp only
    by_cases hy : (sortAscNat (distinctYears g)).length < 2
    · rw [if_pos hy]
      exact ⟨fun _ => rfl, fun pi hpi => absurd hpi (List.not_mem_nil pi)⟩
    · rw [if_neg hy]
      have hlen : (sortAscNat (distinctYears g)).length = (distinctYears g).length :=
        (sortAscNat_perm _).length_eq
      set years := sortAscNat (distinctYears g) with hyears
      have hmemyears : ∀ y, y ∈ years ↔ y ∈ populatedYears g := by
        intro y
        rw [(sortAscNat_perm _).mem_iff]
        unfold distinctYears
        exact List.mem_dedup
      have hne : years ≠ [] := by
        intro hnil
        rw [hnil] at hy
        exact hy (by simp)
      obtain ⟨y0, ys, hcons⟩ := List.exists_cons_of_ne_nil hne
      have hheadD : years.headD 0 = y0 := by rw [hcons]; rfl
      have hy0pop : years.headD 0 ∈ populatedYears g := by
        rw [hheadD, ← hmemyears]
        rw [hcons]
        exact List.mem_cons_self y0 ys
      have hmin : ∀ y ∈ populatedYears g, years.headD 0 ≤ y := by
        intro y hypop
        have hyY : y ∈ years := (hmemyears y).mpr hypop
        rw [hheadD]
        rw [hcons] at hyY
        rcases List.mem_cons.mp hyY with rfl | hy'
        · exact le_refl y
        · have hpw := sortAscNat_pairwise (distinctYears g)
          rw [← hyears, hcons] at hpw
          exact (List.pairwise_cons.mp hpw).1 y hy'
      have hy1pop : years.getLastD 0 ∈ populatedYears g := by
        rw [← hmemyears]
        exact getLastD_mem years 0 (by rw [hcons]; simp)
      have hmax : ∀ y ∈ populatedYears g, y ≤ years.getLastD 0 := by
        intro y hypop
        exact pairwise_le_getLastD years 0 (hyears ▸ sortAscNat_pairwise _) y
          ((hmemyears y).mpr hypop)
      constructor
      · intro hlt
        exfalso
        omega
      · refine foldl_preserves_allP
          (fun pi : PathInfo => ∃ y0 y1, pi.nodes.head?.map PathNode.year = some y0 ∧
            pi.nodes.getLast?.map PathNode.year = some y1 ∧
            y0 ∈ populatedYears g ∧ y1 ∈ populatedYears g ∧
            ∀ y ∈ populatedYears g, y0 ≤ y ∧ y ≤ y1) _ _ []
          ?_ (fun a ha => absurd ha (List.not_mem_nil a))
        intro acc' st hst hacc' a ha
        try dsimp only at ha
        by_cases hcap : max_paths ≤ acc'.length
        · rw [if_pos hcap] at ha
          exact hacc' a ha
        · rw [if_neg hcap] at ha
          cases hspv : sp st.1 st.2 with
          | none =>
            rw [hspv] at ha
            exact hacc' a ha
          | some path =>
            rw [hspv] at ha
            try dsimp only at ha
            by_cases hplen : 1 < path.length
            · rw [if_pos hplen] at ha
              rcases List.mem_append.mp ha with ha | ha
              · exact hacc' a ha
              · rw [List.mem_singleton] at ha
                subst ha
                rcases List.mem_flatMap.mp hst with ⟨s, hs, hstm⟩
                rcases List.mem_map.mp hstm with ⟨t, ht, heq⟩
                subst heq
                obtain ⟨hhead, hlast⟩ := hsp s t path hspv
                have hsyear : (g.attrsOf s).year = years.headD 0 := by
                  obtain ⟨a0, ha0, ha0y⟩ := mem_nodesWithYear (List.mem_of_mem_take hs)
                  rw [attrsOf_of_mem g hnd ha0]
                  exact ha0y
                have htyear : (g.attrsOf t).year = years.getLastD 0 := by
                  obtain ⟨a1, ha1, ha1y⟩ := mem_nodesWithYear (List.mem_of_mem_take ht)
                  rw [attrsOf_of_mem g hnd ha1]
                  exact ha1y
                refine ⟨years.headD 0, years.getLastD 0, ?_, ?_, hy0pop, hy1pop,
                  fun y hy => ⟨hmin y hy, hmax y hy⟩⟩
                · show ((path.map (fun n =>
                      ({ title := (g.attrsOf n).title, year := (g.attrsOf n).year } :
                        PathNode))).head?).map PathNode.year = some (years.headD 0)
                  rw [List.head?_map, hhead]
                  simp only [Option.map_some']
                  rw [hsyear]
                · show ((path.map (fun n =>
                      ({ title := (g.attrsOf n).title, year := (g.attrsOf n).year } :
                        PathNode))).getLast?).map PathNode.year = some (years.getLastD 0)
                  rw [List.getLast?_map, hlast]
                  simp only [Option.map_some']
                  rw [htyear]
            · rw [if_neg hplen] at ha
              exact hacc' a ha

/-- A simple concrete path finder satisfying the `nx.shortest_path`
endpoint contract, used to instantiate witnesses. -/
def spLin : String → String → Option (List String) :=
  fun s t => if s = t then some [s] else some [s, t]

theorem spLin_spec : ∀ s t p, spLin s t = some p →
    p.head? = some s ∧ p.getLast? = some t := by
  intro s t p hp
  unfold spLin at hp
  by_cases h : s = t
  · rw [if_pos h] at hp
    injection hp with hp
    subst hp
    subst h
    exact ⟨rfl, rfl⟩
  · rw [if_neg h] at hp
    injection hp with hp
    subst hp
    exact ⟨rfl, rfl⟩

/-- C6 witness: two nodes with years 2010 and 2012 and a concrete path
finder; the theorem's hypotheses hold and its conclusion follows. -/
theorem C6_witness :
    ((add_nodes {} [p90, p70]).nodeKeys.Nodup) ∧
    (((distinctYears (add_nodes {} [p90, p70])).length < 2 →
        analyze_evolution_paths spLin (add_nodes {} [p90, p70]) 5 = []) ∧
      (∀ pi ∈ analyze_evolution_paths spLin (add_nodes {} [p90, p70]) 5, ∃ y0 y1,
        pi.nodes.head?.map PathNode.year = some y0 ∧
        pi.nodes.getLast?.map PathNode.year = some y1 ∧
        y0 ∈ populatedYears (add_nodes {} [p90, p70]) ∧
        y1 ∈ populatedYears (add_nodes {} [p90, p70]) ∧
        ∀ y ∈ populatedYears (add_nodes {} [p90, p70]), y0 ≤ y ∧ y ≤ y1)) :=
  ⟨by decide,
    C6_evolution_boundaries (add_nodes {} [p90, p70]) spLin 5 (by decide) spLin_spec⟩

end AI4S
